import Mathlib

/-!
Verification of the chunk-construction pipeline of the characterAI repository.

Python strings are modelled as `List Char`.  The functions below are shallow
embeddings of `src/data/chunking.py` (`DocumentChunker.create_chunks`,
`DocumentChunker.chunk_chapters`, `DocumentChunker.__init__`) and of
`src/data/preprocessing.py` (`DataPreprocessor.process_novel`,
`DataPreprocessor._clean_text`).  Machine integers do not occur; all Python
integers in scope are small non-negative counters, modelled as `Nat`
(with `Int` only where Python uses the sentinel -1 of `str.find`).
-/

/-! ## Python string primitives -/

/-- Whitespace test modelling the character class backslash-s of the `re`
module and the default charset of `str.strip` (ASCII part; the claims do not
depend on the non-ASCII whitespace code points). -/
def isPySpace (c : Char) : Bool :=
  c == ' ' || c == '\t' || c == '\n' || c == '\r' || c == '\x0b' || c == '\x0c'

/-- Leading-whitespace removal, the first half of `str.strip`. -/
def trimLeft (s : List Char) : List Char := s.dropWhile isPySpace

/-- Trailing-whitespace removal, the second half of `str.strip`. -/
def trimRight (s : List Char) : List Char := (s.reverse.dropWhile isPySpace).reverse

/-- Python `str.strip()` with no arguments. -/
def pystrip (s : List Char) : List Char := trimRight (trimLeft s)

/-- Does `pat` occur as a contiguous substring?  Models Python `pat in s`. -/
def hasSub (pat : List Char) : List Char → Bool
  | [] => pat.isEmpty
  | c :: cs => pat.isPrefixOf (c :: cs) || hasSub pat cs

/-- Python `s.find(c)` for a single-character needle: first index or -1. -/
def pyfind (c : Char) (s : List Char) : Int :=
  match s.findIdx? (· == c) with
  | some n => (n : Int)
  | none => -1

/-- Python `s.rfind(c)` for a single-character needle: last index or -1. -/
def pyrfind (c : Char) (s : List Char) : Int :=
  match s.reverse.findIdx? (· == c) with
  | some k => ((s.length - 1 - k : Nat) : Int)
  | none => -1

/-- Python slicing `s[i:j]` (for the index shapes produced by find/rfind:
a possibly negative start, a non-negative stop). -/
def pyslice (s : List Char) (i j : Int) : List Char :=
  let n := s.length
  let a : Nat := if i < 0 then ((n : Int) + i).toNat else min i.toNat n
  let b : Nat := if j < 0 then ((n : Int) + j).toNat else min j.toNat n
  (s.drop a).take (b - a)

/-- The backtick character (code point 96). -/
def btick : Char := Char.ofNat 96

/-- The fenced code-block delimiter of three backticks. -/
def ticks : List Char := [btick, btick, btick]

/-- Helper for splitting: prepend a character to the first segment. -/
def consHead (c : Char) : List (List Char) → List (List Char)
  | [] => [[c]]
  | seg :: rest => (c :: seg) :: rest

/-- Python `s.split(sep)` specialised to the three-backtick delimiter:
leftmost non-overlapping occurrences. -/
def splitTicks : List Char → List (List Char)
  | [] => [[]]
  | [a] => [[a]]
  | [a, b] => [[a, b]]
  | a :: b :: c :: rest =>
    if a == btick && b == btick && c == btick then [] :: splitTicks rest
    else consHead a (splitTicks (b :: c :: rest))

/-- The language-tag token removed by the parser: the four letters json
followed by a newline. -/
def jsonTag : List Char := ['j', 's', 'o', 'n', '\n']

/-- Python `s.replace(tag, empty)` specialised to the json language tag:
removes every leftmost non-overlapping occurrence. -/
def replaceJsonTag : List Char → List Char
  | 'j' :: 's' :: 'o' :: 'n' :: '\n' :: rest => replaceJsonTag rest
  | c :: cs => c :: replaceJsonTag cs
  | [] => []

/-! ## Strict JSON values and parser (modelling `json.loads`) -/

/-- JSON values as produced by `json.loads`.  Number lexemes are kept as raw
text: the pipeline never inspects numeric values, only shapes. -/
inductive Json where
  | null : Json
  | bool : Bool → Json
  | num : List Char → Json
  | str : List Char → Json
  | arr : List Json → Json
  | obj : List (List Char × Json) → Json

/-- JSON inter-token whitespace (space, tab, newline, carriage return). -/
def jsonWs (c : Char) : Bool :=
  c == ' ' || c == '\t' || c == '\n' || c == '\r'

/-- Drop JSON inter-token whitespace. -/
def skipWs (s : List Char) : List Char := s.dropWhile jsonWs

/-- Value of a hexadecimal digit (code points 48-57, 97-102, 65-70). -/
def hexVal (c : Char) : Option Nat :=
  let n := c.toNat
  if 48 ≤ n && n ≤ 57 then some (n - 48)
  else if 97 ≤ n && n ≤ 102 then some (n - 87)
  else if 65 ≤ n && n ≤ 70 then some (n - 55)
  else none

/-- Body of a JSON string literal, after the opening quote.  Returns the
decoded content and the remaining input after the closing quote.  Raw control
characters are rejected, as in strict `json.loads`.  (A lone surrogate escape
decodes to NUL here; surrogate-pair combination is not modelled, a corner the
claims never touch.) -/
def parseStringBody : List Char → Option (List Char × List Char)
  | [] => none
  | '"' :: rest => some ([], rest)
  | '\\' :: 'u' :: h1 :: h2 :: h3 :: h4 :: rest =>
    match hexVal h1, hexVal h2, hexVal h3, hexVal h4 with
    | some a, some b, some c, some d =>
      (parseStringBody rest).map
        (fun p => (Char.ofNat (a * 4096 + (b * 256 + (c * 16 + d))) :: p.1, p.2))
    | _, _, _, _ => none
  | '\\' :: e :: rest =>
    match escChar e with
    | some c => (parseStringBody rest).map (fun p => (c :: p.1, p.2))
    | none => none
  | c :: rest =>
    if c.toNat < 32 then none
    else (parseStringBody rest).map (fun p => (c :: p.1, p.2))
where
  escChar : Char → Option Char
  | 'n' => some '\n'
  | 't' => some '\t'
  | 'r' => some '\r'
  | '"' => some '"'
  | 'b' => some '\x08'
  | 'f' => some '\x0c'
  | '/' => some '/'
  | '\\' => some '\\'
  | _ => none

/-- Lexeme of a JSON number (digits after a possible minus sign, fraction,
exponent), per the JSON grammar enforced by `json.loads`. -/
def lexNumberTail (s : List Char) : Option (List Char × List Char) :=
  let core :=
    match s with
    | '0' :: r => some (['0'], r)
    | c :: r =>
      if c.isDigit then
        some (c :: r.takeWhile Char.isDigit, r.dropWhile Char.isDigit)
      else none
    | [] => none
  match core with
  | none => none
  | some (ip, r1) =>
    let (fp, r2) :=
      match r1 with
      | '.' :: r =>
        match r.takeWhile Char.isDigit with
        | [] => ([], '.' :: r)
        | ds => ('.' :: ds, r.dropWhile Char.isDigit)
      | _ => ([], r1)
    if fp.isEmpty && (match r1 with | '.' :: _ => true | _ => false) then none
    else
      let (ep, r3) :=
        match r2 with
        | e :: sgn :: r =>
          if (e == 'e' || e == 'E') && (sgn == '+' || sgn == '-') then
            match r.takeWhile Char.isDigit with
            | [] => ([], r2)
            | ds => (e :: sgn :: ds, r.dropWhile Char.isDigit)
          else if (e == 'e' || e == 'E') && sgn.isDigit then
            (e :: (sgn :: r).takeWhile Char.isDigit,
             (sgn :: r).dropWhile Char.isDigit)
          else ([], r2)
        | [e] =>
          if e == 'e' || e == 'E' then ([], r2) else ([], r2)
        | [] => ([], r2)
      if ep.isEmpty && (match r2 with
          | e :: _ => e == 'e' || e == 'E'
          | [] => false) then none
      else some (ip ++ fp ++ ep, r3)

/-- A JSON number including the optional leading minus sign. -/
def lexNumber (s : List Char) : Option (List Char × List Char) :=
  match s with
  | '-' :: r => (lexNumberTail r).map (fun p => ('-' :: p.1, p.2))
  | _ => lexNumberTail s

mutual

/-- Recursive-descent JSON value parser (fuel-indexed so that it is
structurally recursive and kernel-reducible). -/
def parseValueF : Nat → List Char → Option (Json × List Char)
  | 0, _ => none
  | f + 1, s =>
    match skipWs s with
    | '\x7b' :: r =>
      match skipWs r with
      | '\x7d' :: r2 => some (Json.obj [], r2)
      | r1 => (parseMembersF f r1).map (fun p => (Json.obj p.1, p.2))
    | '[' :: r =>
      match skipWs r with
      | ']' :: r2 => some (Json.arr [], r2)
      | r1 => (parseElemsF f r1).map (fun p => (Json.arr p.1, p.2))
    | '"' :: r => (parseStringBody r).map (fun p => (Json.str p.1, p.2))
    | 't' :: r =>
      if ("rue".data).isPrefixOf r then some (Json.bool true, r.drop 3) else none
    | 'f' :: r =>
      if ("alse".data).isPrefixOf r then some (Json.bool false, r.drop 4) else none
    | 'n' :: r =>
      if ("ull".data).isPrefixOf r then some (Json.null, r.drop 3) else none
    | 'N' :: r =>
      if ("aN".data).isPrefixOf r then some (Json.num ("NaN".data), r.drop 2) else none
    | 'I' :: r =>
      if ("nfinity".data).isPrefixOf r then
        some (Json.num ("Infinity".data), r.drop 7)
      else none
    | '-' :: r =>
      if ("Infinity".data).isPrefixOf r then
        some (Json.num ("-Infinity".data), r.drop 8)
      else (lexNumber ('-' :: r)).map (fun p => (Json.num p.1, p.2))
    | s1 => (lexNumber s1).map (fun p => (Json.num p.1, p.2))

/-- Elements of a non-empty JSON array, after the opening bracket. -/
def parseElemsF : Nat → List Char → Option (List Json × List Char)
  | 0, _ => none
  | f + 1, s =>
    match parseValueF f s with
    | none => none
    | some (v, r) =>
      match skipWs r with
      | ',' :: r2 => (parseElemsF f r2).map (fun p => (v :: p.1, p.2))
      | ']' :: r2 => some ([v], r2)
      | _ => none

/-- Members of a non-empty JSON object, after the opening brace. -/
def parseMembersF : Nat → List Char → Option (List (List Char × Json) × List Char)
  | 0, _ => none
  | f + 1, s =>
    match skipWs s with
    | '"' :: r =>
      match parseStringBody r with
      | none => none
      | some (k, r1) =>
        match skipWs r1 with
        | ':' :: r2 =>
          match parseValueF f r2 with
          | none => none
          | some (v, r3) =>
            match skipWs r3 with
            | ',' :: r4 => (parseMembersF f r4).map (fun p => ((k, v) :: p.1, p.2))
            | '\x7d' :: r4 => some ([(k, v)], r4)
            | _ => none
        | _ => none
    | _ => none

end

/-- `json.loads`: parse one JSON document, allowing surrounding whitespace,
requiring the whole input to be consumed.  `none` models a raised
`JSONDecodeError`. -/
def parseTop (s : List Char) : Option Json :=
  match parseValueF (2 * s.length + 4) s with
  | some (v, rest) => if skipWs rest = [] then some v else none
  | none => none

/-! ## Chunking pipeline (`src/data/chunking.py`) -/

/-- Chapter dictionary as produced by `DataPreprocessor.process_novel`. -/
structure PyChapter where
  chapter_number : Nat
  title : List Char
  text : List Char
  length : Nat

/-- Chunk metadata dictionary built by `DocumentChunker.create_chunks`. -/
structure ChunkMeta where
  chapter_number : Nat
  chapter_title : List Char
  chunk_start : Nat
  chunk_end : Nat
  chunk_index : Nat
  is_first_chunk : Bool
  is_last_chunk : Bool

/-- A chunk dictionary: trimmed text, trimmed summary, metadata. -/
structure Chunk where
  text : List Char
  summary : List Char
  metadata : ChunkMeta

/-- The key text. -/
def keyText : List Char := "text".data

/-- The key summary. -/
def keySummary : List Char := "summary".data

/-- Python `key in dict` for a parsed JSON object. -/
def jsonHasKey (kvs : List (List Char × Json)) (k : List Char) : Bool :=
  kvs.any (fun p => p.1 == k)

/-- Python `dict[key]` lookup for a parsed JSON object.  `json.loads` builds a
dict in which a repeated key is overwritten by its last occurrence, so lookup
takes the last binding. -/
def jsonGet (kvs : List (List Char × Json)) (k : List Char) : Option Json :=
  (kvs.reverse.find? (fun p => p.1 == k)).map (·.2)

/-- The for-loop of `create_chunks` (lines 88-112): walk the parsed records
with the enumerate counter `i` and the running offset `start_pos`.  A record
that is not a dict, or lacks the text or summary key, is skipped.  A record
with both keys whose text or summary value is not a string makes Python raise
`AttributeError` at `.strip()`; `none` models that exception escaping the
loop (it is caught by the outer handler of `create_chunks`). -/
def assembleLoop (ch : PyChapter) (total : Nat) :
    List Json → Nat → Nat → Option (List Chunk)
  | [], _, _ => some []
  | r :: rs, i, startPos =>
    match r with
    | Json.obj kvs =>
      if jsonHasKey kvs keyText && jsonHasKey kvs keySummary then
        match jsonGet kvs keyText, jsonGet kvs keySummary with
        | some (Json.str t), some (Json.str sm) =>
          let ct := pystrip t
          let endPos := startPos + ct.length
          let c : Chunk :=
            { text := ct
              summary := pystrip sm
              metadata :=
                { chapter_number := ch.chapter_number
                  chapter_title := ch.title
                  chunk_start := startPos
                  chunk_end := endPos
                  chunk_index := i
                  is_first_chunk := i == 0
                  is_last_chunk := i == total - 1 } }
          (assembleLoop ch total rs (i + 1) endPos).map (c :: ·)
        | _, _ => none
      else assembleLoop ch total rs (i + 1) startPos
    | _ => assembleLoop ch total rs (i + 1) startPos

/-- Lines 87-118 of `create_chunks`: run the loop over the parsed array.  An
exception inside the loop, or the `ValueError` raised when no valid chunk
survives, is caught by the outer handler, which returns the empty list. -/
def createChunksData (ch : PyChapter) (data : List Json) : List Chunk :=
  match assembleLoop ch data.length data 0 0 with
  | some (c :: cs) => c :: cs
  | _ => []

/-- Lines 66-73 of `create_chunks`: when a fence delimiter occurs, split on
it and select the first stripped segment containing both brackets (the loop
with break); when no segment qualifies, or no fence occurs, the string is
left unchanged. -/
def selectFenced (j : List Char) : List Char :=
  if hasSub ticks j then
    match (splitTicks j).find? (fun p => p.contains '[' && p.contains ']') with
    | some p => pystrip p
    | none => j
  else j

/-- Lines 63-84 of `create_chunks` before `json.loads`: strip the response,
cut out a fenced code-block segment containing both brackets if a fence is
present, delete the json language tags, and truncate to the substring between
the first opening and the last closing bracket. -/
def extractJsonStr (t : List Char) : List Char :=
  let j3 := replaceJsonTag (selectFenced (pystrip t))
  pyslice j3 (pyfind '[' j3) (pyrfind ']' j3 + 1)

/-- The parse stage of `create_chunks`: response text to `json.loads` result
(`none` models the caught `JSONDecodeError`). -/
def parseResponse (t : List Char) : Option Json := parseTop (extractJsonStr t)

/-- `DocumentChunker.create_chunks` given the oracle response.  `none` models
an exception raised by the generation call; an empty response text triggers
the `ValueError` of line 58.  Both are caught by the outer handler and yield
the empty list.  A `json.loads` result that is not a list also ends with the
empty list: iterating a str or a dict yields only str elements, each skipped,
so zero chunks survive, and iterating a number raises `TypeError`, which the
outer handler catches. -/
def create_chunks (ch : PyChapter) (resp : Option (List Char)) : List Chunk :=
  match resp with
  | none => []
  | some t =>
    if t.isEmpty then []
    else
      match parseResponse t with
      | some (Json.arr data) => createChunksData ch data
      | _ => []

/-- `DocumentChunker.chunk_chapters`: extend the accumulator with the chunks
of each chapter in order.  The oracle is the `generate_content` call, one
invocation per chapter. -/
def chunk_chapters (oracle : PyChapter → Option (List Char))
    (chapters : List PyChapter) : List Chunk :=
  (chapters.map (fun ch => create_chunks ch (oracle ch))).flatten

/-- `DocumentChunker.__init__` credential handling (lines 11-18): an explicit
argument wins; otherwise the GOOGLE_API_KEY environment variable is read, and
a missing or falsy (empty) value raises `ValueError`. -/
def initApiKey (apiKey : Option (List Char)) (env : Option (List Char)) :
    Except (List Char) (List Char) :=
  match apiKey with
  | some k => Except.ok k
  | none =>
    match env with
    | none => Except.error ("No API key provided. Set GOOGLE_API_KEY environment variable".data)
    | some v =>
      if v.isEmpty then
        Except.error ("No API key provided. Set GOOGLE_API_KEY environment variable".data)
      else Except.ok v

/-! ## Preprocessing (`src/data/preprocessing.py`) -/

/-- The quote character class of the clean_patterns dict.  In the source the
class is written with three literal ASCII double quotes, so it matches
exactly the double-quote character. -/
def isQuoteVar (c : Char) : Bool := c == '"'

/-- Substitution of the quotes pattern by a double quote. -/
def quoteFix (c : Char) : Char := if isQuoteVar c then '"' else c

/-- Collapse every maximal whitespace run into a single space: the
substitution of the backslash-s-plus pattern in `_clean_text`.  The single
space of a run is emitted at its last character. -/
def collapseWs : List Char → List Char
  | [] => []
  | c :: cs =>
    if isPySpace c then
      match cs with
      | d :: _ => if isPySpace d then collapseWs cs else ' ' :: collapseWs cs
      | [] => [' ']
    else c :: collapseWs cs

/-- `DataPreprocessor._clean_text`: collapse whitespace, normalize quotes,
strip. -/
def clean_text (s : List Char) : List Char :=
  pystrip ((collapseWs s).map quoteFix)

/-- The table-of-contents banner word of the headers pattern. -/
def contentsPat : List Char := "Contents".data

/-- First index at which `pat` occurs as a substring. -/
def findSub (pat : List Char) : List Char → Option Nat
  | [] => if pat.isEmpty then some 0 else none
  | c :: cs =>
    if pat.isPrefixOf (c :: cs) then some 0
    else (findSub pat cs).map (· + 1)

/-- One application of the headers pattern (caret dot-star-lazy Contents
dot-star-lazy newline, MULTILINE and DOTALL): with DOTALL the leftmost match
starts at offset 0 and, by laziness, runs up to the first newline at or after
the end of the first Contents occurrence.  `re.sub` then continues right
after that newline, which is again a line start. -/
def headerSubF : Nat → List Char → List Char
  | 0, s => s
  | f + 1, s =>
    match findSub contentsPat s with
    | none => s
    | some c =>
      match (s.drop (c + 8)).findIdx? (· == '\n') with
      | none => s
      | some j => headerSubF f (s.drop (c + 8 + j + 1))

/-- Removal of all matches of the headers pattern (line 44 of
`process_novel`). -/
def headerSub (s : List Char) : List Char := headerSubF (s.length + 1) s

/-- Backtracking search for the tail of the chapter pattern
(colon-or-whitespace star, then a lazy group, then a newline) at a fixed
position: the greedy character class first keeps its maximal run `a` and the
lazy group then grows to the first newline; on failure the class gives one
character back.  Returns the group text and the number of consumed
characters. -/
def tryAlpha (u : List Char) : Nat → Option (List Char × Nat)
  | 0 =>
    match u.findIdx? (· == '\n') with
    | some j => some (u.take j, j + 1)
    | none => none
  | a + 1 =>
    match (u.drop (a + 1)).findIdx? (· == '\n') with
    | some j => some ((u.drop (a + 1)).take j, a + 1 + j + 1)
    | none => tryAlpha u a

/-- Match of the chapter pattern (the word Chapter, a space, digits, the
colon-or-whitespace class, a lazy group, a newline) anchored at the start of
`t`.  Returns the group text and the length of the whole match. -/
def matchChapterAt (t : List Char) : Option (List Char × Nat) :=
  if ("Chapter ".data).isPrefixOf t then
    let u0 := t.drop 8
    let ds := u0.takeWhile Char.isDigit
    if ds.isEmpty then none
    else
      let u := u0.drop ds.length
      let run := u.takeWhile (fun c => c == ':' || isPySpace c)
      match tryAlpha u run.length with
      | some (g, consumed) => some (g, 8 + ds.length + consumed)
      | none => none
  else none

/-- `finditer` of the chapter pattern: scan left to right, emit each match
with its end position, and resume scanning at the end of the match. -/
def scanChaptersF : Nat → List Char → Nat → List (List Char × Nat)
  | 0, _, _ => []
  | f + 1, t, pos =>
    match matchChapterAt t with
    | some (g, len) => (g, pos + len) :: scanChaptersF f (t.drop len) (pos + len)
    | none =>
      match t with
      | [] => []
      | _ :: rest => scanChaptersF f rest (pos + 1)

/-- All chapter-pattern matches of a text, as (title group, end position). -/
def chapterMatches (t : List Char) : List (List Char × Nat) :=
  scanChaptersF (t.length + 1) t 0

/-- Lines 50-68 of `process_novel`, for one match: the body runs from the
match end to the next plain-substring occurrence of the word Chapter (or the
end of text), is stripped and cleaned, and the chapter number is the 1-based
enumeration index. -/
def mkChapter (text : List Char) (i : Nat) (g : List Char) (e : Nat) : PyChapter :=
  let tail := text.drop e
  let nxt :=
    match findSub ("Chapter".data) tail with
    | some k => k
    | none => tail.length
  let body := clean_text (pystrip (tail.take nxt))
  { chapter_number := i
    title := pystrip g
    text := body
    length := body.length }

/-- The enumerate(matches, 1) loop of `process_novel`. -/
def numberChapters (text : List Char) : Nat → List (List Char × Nat) → List PyChapter
  | _, [] => []
  | i, (g, e) :: ms => mkChapter text i g e :: numberChapters text (i + 1) ms

/-- `DataPreprocessor.process_novel` on the raw file text (the file read
itself is an external collaborator): remove header blocks, find the chapter
matches, and build the chapter dicts. -/
def process_novel (raw : List Char) : List PyChapter :=
  let text := headerSub raw
  numberChapters text 1 (chapterMatches text)

/-! ## Predicates used by the statements -/

/-- The record validation actually performed by the loop (line 90): a dict
containing the text and the summary key. -/
def keptB : Json → Bool
  | Json.obj kvs => jsonHasKey kvs keyText && jsonHasKey kvs keySummary
  | _ => false

/-- A fully valid record in the sense of the specification: a dict whose text
and summary values are both strings. -/
def validRecord : Json → Bool
  | Json.obj kvs =>
    match jsonGet kvs keyText, jsonGet kvs keySummary with
    | some (Json.str _), some (Json.str _) => true
    | _, _ => false
  | _ => false

/-- A record that cannot make the loop raise: either it fails the dict/key
check (and is skipped) or its two values are strings. -/
def safeRecord (r : Json) : Bool := !keptB r || validRecord r

/-- The trimmed text a record contributes, when it is fully valid. -/
def recordText : Json → Option (List Char)
  | Json.obj kvs =>
    match jsonGet kvs keyText, jsonGet kvs keySummary with
    | some (Json.str t), some (Json.str _) => some (pystrip t)
    | _, _ => none
  | _ => none

/-- Offset-chain check: starting from running offset `p`, each chunk starts
at the running offset, ends at start plus the length of its (trimmed) text,
and hands its end to the next chunk. -/
def chainFromB : Nat → List Chunk → Bool
  | _, [] => true
  | p, c :: cs =>
    (c.metadata.chunk_start == p) &&
    (c.metadata.chunk_end == c.metadata.chunk_start + c.text.length) &&
    chainFromB c.metadata.chunk_end cs

/-- Adjacent characters are not both whitespace: the shape left behind by
the whitespace-collapsing substitution. -/
def noWsPair (a b : Char) : Prop := ¬(isPySpace a = true ∧ isPySpace b = true)

/-- Positions (0-based, counted over the whole parsed array) of the records
that pass the dict/key check, starting the count at `i`. -/
def keptIdx : Nat → List Json → List Nat
  | _, [] => []
  | i, r :: rs => if keptB r then i :: keptIdx (i + 1) rs else keptIdx (i + 1) rs

/-- Positions of the kept records of a parsed array. -/
def keptIndexes (rs : List Json) : List Nat := keptIdx 0 rs

/-! ## Concrete inputs for witnesses and counterexamples -/

/-- A sample chapter dict. -/
def exChapter : PyChapter :=
  { chapter_number := 1
    title := "The Boy Who Lived".data
    text := "Mr and Mrs Dursley were proud.".data
    length := 30 }

/-- A fully valid record. -/
def exRecGood : Json :=
  Json.obj [(keyText, Json.str (" Mr and Mrs Dursley ".data)),
            (keySummary, Json.str ("Introduces the Dursleys".data))]

/-- A second fully valid record. -/
def exRecGood2 : Json :=
  Json.obj [(keyText, Json.str ("Harry lay awake".data)),
            (keySummary, Json.str ("His thoughts".data))]

/-- A record missing the summary key: skipped by the loop. -/
def exRecMissing : Json := Json.obj [(keyText, Json.str ("x".data))]

/-- A record with both keys but a non-string text value: `.strip()` raises. -/
def exRecNonString : Json :=
  Json.obj [(keyText, Json.num ("1".data)), (keySummary, Json.str ("s".data))]

/-- Raw novel text with two chapter-pattern matches in which the header
(table-of-contents) removal deletes the first chapter delimiter. -/
def exRawContents : List Char := "Chapter 1: A\nContents\nChapter 2: B\nx\n".data

/-- Raw novel text with a single plain chapter. -/
def exRawOne : List Char := "Chapter 1: Hi\nBody text.\n".data

/-- A bracket-free oracle refusal. -/
def exRespRefusal : List Char := "Sorry, I cannot process this.".data

/-- A valid fenced JSON array of one record. -/
def exArrayText : List Char := "[\x7b\"text\":\"A\",\"summary\":\"B\"\x7d]".data

/-- The record carried by `exArrayText`. -/
def exArrayRecs : List Json :=
  [Json.obj [(keyText, Json.str ("A".data)), (keySummary, Json.str ("B".data))]]

/-- A fenced response whose leading prose contains a bracketed aside, so the
fence-segment selection picks the prose instead of the array. -/
def exRespProseBrackets : List Char :=
  ("I [tried] my best:\n".data) ++ ticks ++ jsonTag ++ exArrayText ++ ['\n'] ++ ticks

/-- A fenced response with bracket-free surrounding prose. -/
def exRespFenced : List Char :=
  ("Here is the result:\n".data) ++ ticks ++ jsonTag ++ exArrayText ++ ['\n'] ++ ticks
    ++ ("\nHope this helps.".data)

/-! ## Lemmas about the assembly loop -/

theorem jsonGet_some_hasKey (kvs : List (List Char × Json)) (k : List Char)
    (v : Json) (h : jsonGet kvs k = some v) : jsonHasKey kvs k = true := by
  unfold jsonGet at h
  unfold jsonHasKey
  rcases ho : kvs.reverse.find? (fun p => p.1 == k) with _ | p
  · rw [ho] at h; simp at h
  · have hp := List.find?_some ho
    have hm := List.mem_of_find?_eq_some ho
    rw [List.mem_reverse] at hm
    exact List.any_eq_true.mpr ⟨p, hm, hp⟩

theorem jsonGet_none_of_no_key (kvs : List (List Char × Json)) (k : List Char)
    (h : jsonHasKey kvs k = false) : jsonGet kvs k = none := by
  rcases ho : jsonGet kvs k with _ | v
  · rfl
  · rw [jsonGet_some_hasKey kvs k v ho] at h; cases h


theorem validRecord_elim (r : Json) (h : validRecord r = true) :
    ∃ kvs t sm, r = Json.obj kvs ∧ jsonGet kvs keyText = some (Json.str t) ∧
      jsonGet kvs keySummary = some (Json.str sm) := by
  cases r with
  | obj kvs =>
    simp only [validRecord] at h
    split at h
    next t sm ht hs => exact ⟨kvs, t, sm, rfl, ht, hs⟩
    next => cases h
  | null => simp [validRecord] at h
  | bool b => simp [validRecord] at h
  | num n => simp [validRecord] at h
  | str s => simp [validRecord] at h
  | arr l => simp [validRecord] at h

theorem validRecord_keptB (r : Json) (h : validRecord r = true) :
    keptB r = true := by
  obtain ⟨kvs, t, sm, hr, ht, hs⟩ := validRecord_elim r h
  subst hr
  simp only [keptB]
  rw [jsonGet_some_hasKey kvs keyText _ ht, jsonGet_some_hasKey kvs keySummary _ hs]
  rfl

theorem keptB_false_get_none (kvs : List (List Char × Json))
    (h : keptB (Json.obj kvs) = false) :
    jsonGet kvs keyText = none ∨ jsonGet kvs keySummary = none := by
  cases hb : jsonHasKey kvs keyText with
  | false => exact Or.inl (jsonGet_none_of_no_key _ _ hb)
  | true =>
    cases hb2 : jsonHasKey kvs keySummary with
    | false => exact Or.inr (jsonGet_none_of_no_key _ _ hb2)
    | true => simp [keptB, hb, hb2] at h

theorem recordText_none_of_not_kept (r : Json) (h : keptB r = false) :
    recordText r = none := by
  cases r with
  | obj kvs =>
    rcases keptB_false_get_none kvs h with h1 | h1
    · simp [recordText, h1]
    · rcases hg : jsonGet kvs keyText with _ | v
      · simp [recordText, hg]
      · cases v <;> simp [recordText, hg, h1]
  | null => rfl
  | bool b => rfl
  | num n => rfl
  | str s => rfl
  | arr l => rfl

theorem assembleLoop_skip (ch : PyChapter) (total : Nat) (r : Json)
    (rs : List Json) (i p : Nat) (h : keptB r = false) :
    assembleLoop ch total (r :: rs) i p = assembleLoop ch total rs (i + 1) p := by
  cases r with
  | obj kvs =>
    have hk : (jsonHasKey kvs keyText && jsonHasKey kvs keySummary) = false := by
      simpa [keptB] using h
    simp [assembleLoop, hk]
  | null => rfl
  | bool b => rfl
  | num n => rfl
  | str s => rfl
  | arr l => rfl

theorem assembleLoop_cons_valid (ch : PyChapter) (total : Nat)
    (kvs : List (List Char × Json)) (rs : List Json) (i p : Nat)
    (t sm : List Char)
    (ht : jsonGet kvs keyText = some (Json.str t))
    (hs : jsonGet kvs keySummary = some (Json.str sm)) :
    assembleLoop ch total (Json.obj kvs :: rs) i p =
      (assembleLoop ch total rs (i + 1) (p + (pystrip t).length)).map
        (fun cs =>
          ({ text := pystrip t
             summary := pystrip sm
             metadata :=
               { chapter_number := ch.chapter_number
                 chapter_title := ch.title
                 chunk_start := p
                 chunk_end := p + (pystrip t).length
                 chunk_index := i
                 is_first_chunk := i == 0
                 is_last_chunk := i == total - 1 } } : Chunk) :: cs) := by
  have hk : (jsonHasKey kvs keyText && jsonHasKey kvs keySummary) = true := by
    rw [jsonGet_some_hasKey kvs keyText _ ht, jsonGet_some_hasKey kvs keySummary _ hs]
    rfl
  simp [assembleLoop, hk, ht, hs]

theorem assembleLoop_cons_raise (ch : PyChapter) (total : Nat)
    (kvs : List (List Char × Json)) (rs : List Json) (i p : Nat)
    (hk : keptB (Json.obj kvs) = true)
    (hv : validRecord (Json.obj kvs) = false) :
    assembleLoop ch total (Json.obj kvs :: rs) i p = none := by
  have hk' : (jsonHasKey kvs keyText && jsonHasKey kvs keySummary) = true := by
    simpa [keptB] using hk
  simp only [assembleLoop, hk', if_true]
  split
  next t sm ht hs => simp [validRecord, ht, hs] at hv
  next => rfl

theorem assembleLoop_sound (ch : PyChapter) (total : Nat) :
    ∀ (rs : List Json) (i p : Nat) (cs : List Chunk),
    assembleLoop ch total rs i p = some cs →
    chainFromB p cs = true ∧
    cs.map (fun c => c.metadata.chunk_index) = keptIdx i rs ∧
    cs.map (fun c => c.text) = rs.filterMap recordText ∧
    ∀ c ∈ cs, c.metadata.is_first_chunk = (c.metadata.chunk_index == 0) ∧
      c.metadata.is_last_chunk = (c.metadata.chunk_index == total - 1) ∧
      i ≤ c.metadata.chunk_index
  | [], i, p, cs, h => by
    unfold assembleLoop at h
    cases h
    exact ⟨rfl, rfl, rfl, by intro c hc; cases hc⟩
  | r :: rs, i, p, cs, h => by
    cases hk : keptB r with
    | false =>
      rw [assembleLoop_skip ch total r rs i p hk] at h
      have IH := assembleLoop_sound ch total rs (i + 1) p cs h
      refine ⟨IH.1, ?_, ?_, ?_⟩
      · rw [IH.2.1]
        simp [keptIdx, hk]
      · rw [IH.2.2.1, List.filterMap_cons, recordText_none_of_not_kept r hk]
      · intro c hc
        have hfl := IH.2.2.2 c hc
        exact ⟨hfl.1, hfl.2.1, Nat.le_of_succ_le hfl.2.2⟩
    | true =>
      cases hv : validRecord r with
      | false =>
        obtain ⟨kvs, hr⟩ : ∃ kvs, r = Json.obj kvs := by
          cases r with
          | obj kvs => exact ⟨kvs, rfl⟩
          | null => cases hk
          | bool b => cases hk
          | num n => cases hk
          | str s => cases hk
          | arr l => cases hk
        subst hr
        rw [assembleLoop_cons_raise ch total kvs rs i p hk hv] at h
        cases h
      | true =>
        obtain ⟨kvs, t, sm, hr, ht, hs⟩ := validRecord_elim r hv
        subst hr
        rw [assembleLoop_cons_valid ch total kvs rs i p t sm ht hs] at h
        rcases Option.map_eq_some'.mp h with ⟨cs', hrec, hcs⟩
        subst hcs
        have IH := assembleLoop_sound ch total rs (i + 1)
          (p + (pystrip t).length) cs' hrec
        refine ⟨?_, ?_, ?_, ?_⟩
        · simp [chainFromB, IH.1]
        · simp only [List.map_cons, IH.2.1, keptIdx, hk, if_true]
        · simp only [List.map_cons, IH.2.2.1, List.filterMap_cons]
          have hrt : recordText (Json.obj kvs) = some (pystrip t) := by
            simp [recordText, ht, hs]
          rw [hrt]
        · intro c hc
          rcases List.mem_cons.mp hc with hc | hc
          · subst hc
            exact ⟨rfl, rfl, Nat.le_refl _⟩
          · have hfl := IH.2.2.2 c hc
            exact ⟨hfl.1, hfl.2.1, Nat.le_of_succ_le hfl.2.2⟩

theorem assembleLoop_total (ch : PyChapter) (total : Nat) :
    ∀ (rs : List Json) (i p : Nat), (∀ r ∈ rs, safeRecord r = true) →
    ∃ cs, assembleLoop ch total rs i p = some cs ∧
      cs.length = (rs.filter keptB).length
  | [], _, _, _ => ⟨[], rfl, rfl⟩
  | r :: rs, i, p, hsafe => by
    have hsafe' : ∀ x ∈ rs, safeRecord x = true :=
      fun x hx => hsafe x (List.mem_cons_of_mem r hx)
    cases hk : keptB r with
    | false =>
      rcases assembleLoop_total ch total rs (i + 1) p hsafe' with ⟨cs, hrec, hlen⟩
      refine ⟨cs, ?_, ?_⟩
      · rw [assembleLoop_skip ch total r rs i p hk]
        exact hrec
      · rw [hlen, List.filter_cons, hk]
        simp
    | true =>
      have hv : validRecord r = true := by
        have hsr := hsafe r (List.mem_cons_self r rs)
        simpa [safeRecord, hk] using hsr
      obtain ⟨kvs, t, sm, hr, ht, hs⟩ := validRecord_elim r hv
      subst hr
      rcases assembleLoop_total ch total rs (i + 1)
        (p + (pystrip t).length) hsafe' with ⟨cs, hrec, hlen⟩
      have heq := assembleLoop_cons_valid ch total kvs rs i p t sm ht hs
      rw [hrec, Option.map_some'] at heq
      refine ⟨_, heq, ?_⟩
      rw [List.filter_cons, hk]
      simpa using hlen

theorem createChunksData_of_some (ch : PyChapter) (rs : List Json)
    (cs : List Chunk) (h : assembleLoop ch rs.length rs 0 0 = some cs) :
    createChunksData ch rs = cs := by
  unfold createChunksData
  rw [h]
  cases cs <;> rfl

theorem createChunksData_of_none (ch : PyChapter) (rs : List Json)
    (h : assembleLoop ch rs.length rs 0 0 = none) :
    createChunksData ch rs = [] := by
  unfold createChunksData
  rw [h]

theorem keptIdx_append : ∀ (a b : List Json) (i : Nat),
    keptIdx i (a ++ b) = keptIdx i a ++ keptIdx (i + a.length) b
  | [], b, i => by simp [keptIdx]
  | r :: a, b, i => by
    have IH := keptIdx_append a b (i + 1)
    have harith : i + 1 + a.length = i + (a.length + 1) := by omega
    rw [harith] at IH
    rw [List.cons_append]
    cases hk : keptB r with
    | true =>
      simp only [keptIdx, hk, if_true, List.length_cons]
      rw [IH]
      rfl
    | false =>
      simp only [keptIdx, hk, Bool.false_eq_true, if_false, List.length_cons]
      exact IH

theorem keptIdx_mem_lt : ∀ (l : List Json) (i j : Nat),
    j ∈ keptIdx i l → j < i + l.length
  | [], _, _, h => by cases h
  | r :: l, i, j, h => by
    cases hk : keptB r with
    | true =>
      simp only [keptIdx, hk, if_true] at h
      rcases List.mem_cons.mp h with h | h
      · subst h; simp
      · have := keptIdx_mem_lt l (i + 1) j h
        simp only [List.length_cons]
        omega
    | false =>
      simp only [keptIdx, hk, Bool.false_eq_true, if_false] at h
      have := keptIdx_mem_lt l (i + 1) j h
      simp only [List.length_cons]
      omega

/-- C1: for every chapter and every parsed record sequence in which every
record is valid and at least one is present, create_chunks produces one chunk
per record, with chunk_end = chunk_start + length of the trimmed text, the
first chunk_start equal to 0, and each later chunk_start equal to the
previous chunk_end (checked by the offset chain starting at 0). -/
theorem create_chunks_offsets (ch : PyChapter) (rs : List Json)
    (hne : rs ≠ []) (hval : ∀ r ∈ rs, validRecord r = true) :
    (createChunksData ch rs).length = rs.length ∧
    chainFromB 0 (createChunksData ch rs) = true := by
  have hsafe : ∀ r ∈ rs, safeRecord r = true := fun r hr => by
    simp [safeRecord, hval r hr]
  obtain ⟨cs, hloop, hlen⟩ := assembleLoop_total ch rs.length rs 0 0 hsafe
  have hdata := createChunksData_of_some ch rs cs hloop
  have hfilter : rs.filter keptB = rs :=
    List.filter_eq_self.mpr (fun r hr => validRecord_keptB r (hval r hr))
  refine ⟨?_, ?_⟩
  · rw [hdata, hlen, hfilter]
  · rw [hdata]
    exact (assembleLoop_sound ch rs.length rs 0 0 cs hloop).1

theorem create_chunks_offsets_witness :
    (createChunksData exChapter [exRecGood, exRecGood2]).length = 2 ∧
    chainFromB 0 (createChunksData exChapter [exRecGood, exRecGood2]) = true := by
  have h := create_chunks_offsets exChapter [exRecGood, exRecGood2]
    (List.cons_ne_nil _ _) (by decide)
  exact ⟨by rw [h.1]; rfl, h.2⟩

/-- C10: the offset invariant holds for the surviving chunks of any record
sequence at all: the running offset advances only for kept chunks, so the
first kept chunk starts at 0 and each later kept chunk starts at the
previous kept chunk_end, with no gaps for dropped records.  (When the result
is empty the chain holds vacuously.) -/
theorem create_chunks_offsets_surviving (ch : PyChapter) (rs : List Json) :
    chainFromB 0 (createChunksData ch rs) = true := by
  cases hloop : assembleLoop ch rs.length rs 0 0 with
  | none =>
    rw [createChunksData_of_none ch rs hloop]
    rfl
  | some cs =>
    rw [createChunksData_of_some ch rs cs hloop]
    exact (assembleLoop_sound ch rs.length rs 0 0 cs hloop).1

/-- C5: every produced chunk carries is_first_chunk exactly when its
chunk_index is 0 and is_last_chunk exactly when its chunk_index equals the
original record count minus one; under the no-exception condition the
chunk_index values are exactly the original positions of the kept records;
consequently a trailing dropped record leaves no surviving chunk marked
last. -/
theorem create_chunks_boundary_flags (ch : PyChapter) (rs : List Json) :
    (∀ c ∈ createChunksData ch rs,
      c.metadata.is_first_chunk = (c.metadata.chunk_index == 0) ∧
      c.metadata.is_last_chunk = (c.metadata.chunk_index == rs.length - 1)) ∧
    ((∀ r ∈ rs, safeRecord r = true) →
      (createChunksData ch rs).map (fun c => c.metadata.chunk_index) =
        keptIndexes rs) ∧
    (∀ rs2 r, rs = rs2 ++ [r] → keptB r = false →
      ∀ c ∈ createChunksData ch rs, c.metadata.is_last_chunk = false) := by
  refine ⟨?_, ?_, ?_⟩
  · intro c hc
    cases hloop : assembleLoop ch rs.length rs 0 0 with
    | none =>
      rw [createChunksData_of_none ch rs hloop] at hc
      cases hc
    | some cs =>
      rw [createChunksData_of_some ch rs cs hloop] at hc
      have h := (assembleLoop_sound ch rs.length rs 0 0 cs hloop).2.2.2 c hc
      exact ⟨h.1, h.2.1⟩
  · intro hsafe
    obtain ⟨cs, hloop, _⟩ := assembleLoop_total ch rs.length rs 0 0 hsafe
    rw [createChunksData_of_some ch rs cs hloop]
    exact (assembleLoop_sound ch rs.length rs 0 0 cs hloop).2.1
  · intro rs2 r hr hkr c hc
    cases hloop : assembleLoop ch rs.length rs 0 0 with
    | none =>
      rw [createChunksData_of_none ch rs hloop] at hc
      cases hc
    | some cs =>
      rw [createChunksData_of_some ch rs cs hloop] at hc
      have hsnd := assembleLoop_sound ch rs.length rs 0 0 cs hloop
      have hmem : c.metadata.chunk_index ∈ keptIdx 0 rs := by
        rw [← hsnd.2.1]
        exact List.mem_map_of_mem _ hc
      have hlt : c.metadata.chunk_index < rs2.length := by
        rw [hr, keptIdx_append rs2 [r] 0] at hmem
        simp only [keptIdx, hkr, if_false] at hmem
        have := keptIdx_mem_lt rs2 0 c.metadata.chunk_index (by simpa using hmem)
        omega
      have hflag := (hsnd.2.2.2 c hc).2.1
      have hlen : rs.length - 1 = rs2.length := by
        rw [hr]; simp
      rw [hflag, hlen]
      exact beq_eq_false_iff_ne.mpr (Nat.ne_of_lt hlt)

theorem create_chunks_boundary_flags_witness :
    (createChunksData exChapter [exRecGood, exRecMissing]).map
      (fun c => c.metadata.chunk_index) = [0] ∧
    (∀ c ∈ createChunksData exChapter [exRecGood, exRecMissing],
      c.metadata.is_last_chunk = false) := by
  have h := create_chunks_boundary_flags exChapter [exRecGood, exRecMissing]
  refine ⟨?_, ?_⟩
  · rw [h.2.1 (by decide)]
    rfl
  · exact h.2.2 [exRecGood] exRecMissing rfl (by decide)

/-- C2 counterexample: the second record is a dict with both keys whose text
value is a number; Python raises AttributeError at strip, the outer handler
catches it, and the whole chapter yields no chunks, so the valid first
record does not survive either. -/
theorem create_chunks_invalid_sibling_cex :
    validRecord exRecGood = true ∧ keptB exRecNonString = true ∧
    validRecord exRecNonString = false ∧
    createChunksData exChapter [exRecGood, exRecNonString] = [] := by
  exact ⟨by decide, by decide, by decide, rfl⟩

/-- C2 amended: an element that is not a dict carrying both the text and the
summary key is skipped individually and does not invalidate its siblings;
provided every element carrying both keys has string-typed values (otherwise
the whole chapter degrades to no chunks), every valid element still yields a
chunk, in order. -/
theorem create_chunks_per_record_isolation (ch : PyChapter) (rs : List Json)
    (hsafe : ∀ r ∈ rs, safeRecord r = true) :
    (createChunksData ch rs).map (fun c => c.text) = rs.filterMap recordText := by
  obtain ⟨cs, hloop, _⟩ := assembleLoop_total ch rs.length rs 0 0 hsafe
  rw [createChunksData_of_some ch rs cs hloop]
  exact (assembleLoop_sound ch rs.length rs 0 0 cs hloop).2.2.1

theorem create_chunks_per_record_isolation_witness :
    (createChunksData exChapter [exRecGood, exRecMissing, exRecGood2]).map
      (fun c => c.text) =
      [("Mr and Mrs Dursley".data), ("Harry lay awake".data)] := by
  have h := create_chunks_per_record_isolation exChapter
    [exRecGood, exRecMissing, exRecGood2] (by decide)
  rw [h]
  rfl

/-- C9: constructing the chunker with no explicit api_key and no
GOOGLE_API_KEY environment value raises ValueError; an explicit key, or a
non-empty environment value, never fails this check. -/
theorem init_api_key_credential (k v : List Char) (env : Option (List Char))
    (hv : v ≠ []) :
    initApiKey none none =
      Except.error ("No API key provided. Set GOOGLE_API_KEY environment variable".data) ∧
    initApiKey (some k) env = Except.ok k ∧
    initApiKey none (some v) = Except.ok v := by
  refine ⟨rfl, rfl, ?_⟩
  have he : v.isEmpty = false := by
    cases v with
    | nil => exact absurd rfl hv
    | cons a l => rfl
  simp only [initApiKey, he, Bool.false_eq_true, if_false]

theorem init_api_key_credential_witness :
    initApiKey none none =
      Except.error ("No API key provided. Set GOOGLE_API_KEY environment variable".data) ∧
    initApiKey (some ("k0".data)) none = Except.ok ("k0".data) ∧
    initApiKey none (some ("v0".data)) = Except.ok ("v0".data) :=
  init_api_key_credential ("k0".data) ("v0".data) none (by decide)

theorem create_chunks_no_array (ch : PyChapter) (t : List Char)
    (h : ∀ l, parseResponse t ≠ some (Json.arr l)) :
    create_chunks ch (some t) = [] := by
  show (if t.isEmpty then []
        else match parseResponse t with
          | some (Json.arr data) => createChunksData ch data
          | _ => []) = []
  cases he : t.isEmpty with
  | true => simp
  | false =>
    rw [if_neg (by simp)]
    cases hp : parseResponse t with
    | none => rfl
    | some v =>
      cases v with
      | arr l => exact absurd hp (h l)
      | null => rfl
      | bool b => rfl
      | num n => rfl
      | str s => rfl
      | obj o => rfl

/-- C8: chunk_chapters is the in-order concatenation of the per-chapter
create_chunks results; a chapter whose oracle call fails (raises) or whose
response fails parsing contributes the empty list without altering its
siblings. -/
theorem chunk_chapters_concat_isolation (oracle : PyChapter → Option (List Char))
    (pre post : List PyChapter) (ch : PyChapter) :
    chunk_chapters oracle (pre ++ ch :: post) =
      chunk_chapters oracle pre ++ create_chunks ch (oracle ch) ++
        chunk_chapters oracle post ∧
    (oracle ch = none → create_chunks ch (oracle ch) = []) ∧
    (∀ t, oracle ch = some t → (∀ l, parseResponse t ≠ some (Json.arr l)) →
      create_chunks ch (oracle ch) = []) := by
  refine ⟨?_, ?_, ?_⟩
  · unfold chunk_chapters
    rw [List.map_append, List.map_cons, List.flatten_append, List.flatten_cons,
      List.append_assoc]
  · intro h
    rw [h]
    rfl
  · intro t ht hp
    rw [ht]
    exact create_chunks_no_array ch t hp

theorem chunk_chapters_concat_isolation_witness :
    chunk_chapters (fun _ => none) [exChapter] = [] := by
  have h := chunk_chapters_concat_isolation (fun _ => none) [] [] exChapter
  have h2 := h.2.1 rfl
  have h1 := h.1
  rw [h2] at h1
  simpa using h1

theorem mem_of_mem_trimLeft (c : Char) (s : List Char) (h : c ∈ trimLeft s) :
    c ∈ s := (List.dropWhile_sublist isPySpace).subset h

theorem mem_of_mem_trimRight (c : Char) (s : List Char) (h : c ∈ trimRight s) :
    c ∈ s := by
  unfold trimRight at h
  rw [List.mem_reverse] at h
  have h2 := (List.dropWhile_sublist isPySpace).subset h
  rwa [List.mem_reverse] at h2

theorem mem_of_mem_pystrip (c : Char) (s : List Char) (h : c ∈ pystrip s) :
    c ∈ s :=
  mem_of_mem_trimLeft c s (mem_of_mem_trimRight c (trimLeft s) h)

theorem splitTicks_mem_subset (l : List Char) :
    ∀ p ∈ splitTicks l, ∀ c ∈ p, c ∈ l := by
  induction l using splitTicks.induct with
  | case1 =>
    intro p hp c hc
    simp only [splitTicks, List.mem_singleton] at hp
    subst hp
    cases hc
  | case2 a =>
    intro p hp c hc
    simp only [splitTicks, List.mem_singleton] at hp
    subst hp
    exact hc
  | case3 a b =>
    intro p hp c hc
    simp only [splitTicks, List.mem_singleton] at hp
    subst hp
    exact hc
  | case4 a b c' rest htick ih =>
    intro p hp x hx
    simp only [splitTicks, htick, if_true] at hp
    rcases List.mem_cons.mp hp with hp | hp
    · subst hp
      cases hx
    · have := ih p hp x hx
      exact List.mem_cons_of_mem _ (List.mem_cons_of_mem _ (List.mem_cons_of_mem _ this))
  | case5 a b c' rest htick ih =>
    intro p hp x hx
    simp only [splitTicks, htick, Bool.false_eq_true, if_false] at hp
    cases hsp : splitTicks (b :: c' :: rest) with
    | nil =>
      rw [hsp] at hp
      simp only [consHead, List.mem_singleton] at hp
      subst hp
      have hxa : x = a := by simpa using hx
      subst hxa
      exact List.mem_cons_self _ _
    | cons seg r =>
      rw [hsp] at hp
      simp only [consHead] at hp
      rcases List.mem_cons.mp hp with hp | hp
      · subst hp
        rcases List.mem_cons.mp hx with hx | hx
        · subst hx
          exact List.mem_cons_self _ _
        · have hsegmem : seg ∈ splitTicks (b :: c' :: rest) := by
            rw [hsp]
            exact List.mem_cons_self _ _
          exact List.mem_cons_of_mem _ (ih seg hsegmem x hx)
      · have hpmem : p ∈ splitTicks (b :: c' :: rest) := by
          rw [hsp]
          exact List.mem_cons_of_mem _ hp
        exact List.mem_cons_of_mem _ (ih p hpmem x hx)

theorem replaceJsonTag_subset (l : List Char) :
    ∀ c ∈ replaceJsonTag l, c ∈ l := by
  induction l using replaceJsonTag.induct with
  | case1 rest ih =>
    intro c hc
    have := ih c (by simpa [replaceJsonTag] using hc)
    simp only [List.mem_cons]
    tauto
  | case2 c0 cs hne ih =>
    intro c hc
    have hstep : replaceJsonTag (c0 :: cs) = c0 :: replaceJsonTag cs := by
      rw [replaceJsonTag.eq_def]
      split
      · next rest heq =>
        exfalso
        injection heq with h1 h2
        exact hne rest h1 h2
      · next c1 cs1 heq =>
        injection heq with h1 h2
        rw [h1, h2]
      · next heq =>
        exact absurd heq (by simp)
    rw [hstep] at hc
    rcases List.mem_cons.mp hc with hc | hc
    · subst hc
      exact List.mem_cons_self _ _
    · exact List.mem_cons_of_mem _ (ih c hc)
  | case3 =>
    intro c hc
    cases hc

theorem findIdx?_some_lt (p : Char → Bool) (l : List Char) (k : Nat)
    (h : l.findIdx? p = some k) : k < l.length := by
  obtain ⟨hk, -, -⟩ := List.findIdx?_eq_some_iff_getElem.mp h
  exact hk

theorem findIdx?_zero_head (p : Char → Bool) (l : List Char)
    (h : l.findIdx? p = some 0) : ∃ c t, l = c :: t ∧ p c = true := by
  obtain ⟨hk, hp, -⟩ := List.findIdx?_eq_some_iff_getElem.mp h
  cases l with
  | nil => simp at hk
  | cons c t => exact ⟨c, t, rfl, by simpa using hp⟩

theorem pyslice_stop_zero (s : List Char) (i : Int) : pyslice s i 0 = [] := by
  simp [pyslice]

theorem pyslice_last (X : List Char) (c : Char) :
    pyslice (X ++ [c]) (-1) ((X.length : Int) + 1) = [c] := by
  unfold pyslice
  have hlen : (X ++ [c]).length = X.length + 1 := by simp
  rw [hlen]
  have h1 : ¬ ((X.length : Int) + 1 < 0) := by omega
  have h2 : ((-1 : Int) < 0) := by omega
  simp only [h1, h2, if_true, if_false]
  have ha : (((X.length + 1 : Nat) : Int) + -1).toNat = X.length := by omega
  have hb' : ((X.length : Int) + 1).toNat = X.length + 1 := by omega
  rw [ha, hb', min_self]
  have hc : X.length + 1 - X.length = 1 := by omega
  rw [hc, List.drop_left]
  rfl

theorem pyslice_neg_one_small (s : List Char) (j : Int) (hj : 0 ≤ j)
    (hlt : j ≤ (s.length : Int) - 1) : pyslice s (-1) j = [] := by
  unfold pyslice
  have h1 : ¬ (j < 0) := by omega
  have h2 : ((-1 : Int) < 0) := by omega
  simp only [h1, h2, if_true, if_false]
  have hb : j.toNat ≤ s.length := by omega
  rw [min_eq_left hb]
  have h0 : j.toNat - (((s.length : Nat) : Int) + -1).toNat = 0 := by omega
  rw [h0]
  exact List.take_zero _

theorem pyslice_rfind_cases (s : List Char) :
    pyslice s (-1) (pyrfind ']' s + 1) = [] ∨
    pyslice s (-1) (pyrfind ']' s + 1) = [']'] := by
  unfold pyrfind
  cases hf : s.reverse.findIdx? (· == ']') with
  | none =>
    left
    have hz : (-1 : Int) + 1 = 0 := by omega
    rw [hz]
    exact pyslice_stop_zero s (-1)
  | some k =>
    have hk := findIdx?_some_lt _ _ _ hf
    rw [List.length_reverse] at hk
    cases k with
    | zero =>
      right
      obtain ⟨c, tl, hrev, hpc⟩ := findIdx?_zero_head _ _ hf
      have hc : c = ']' := by simpa using hpc
      subst hc
      have hs : s = tl.reverse ++ [']'] := by
        have h2 := congrArg List.reverse hrev
        simpa using h2
      rw [hs] at hk ⊢
      show pyslice (tl.reverse ++ [']']) (-1)
          ((((tl.reverse ++ [']']).length - 1 - 0 : Nat) : Int) + 1) = [']']
      have hlen2 : ((tl.reverse ++ [']']).length - 1 - 0 : Nat) = tl.reverse.length := by
        simp
      rw [hlen2]
      exact pyslice_last tl.reverse ']'
    | succ k' =>
      left
      show pyslice s (-1) (((s.length - 1 - (k' + 1) : Nat) : Int) + 1) = []
      apply pyslice_neg_one_small
      · omega
      · omega

theorem parse_slice_no_bracket (j3 : List Char) (h3 : '[' ∉ j3) :
    parseTop (pyslice j3 (pyfind '[' j3) (pyrfind ']' j3 + 1)) = none := by
  have hfi : j3.findIdx? (· == '[') = none :=
    List.findIdx?_eq_none_iff.mpr
      (fun x hx => beq_eq_false_iff_ne.mpr (fun he => h3 (he ▸ hx)))
  have hfind : pyfind '[' j3 = -1 := by
    unfold pyfind
    rw [hfi]
  rw [hfind]
  rcases pyslice_rfind_cases j3 with hsl | hsl
  · rw [hsl]
    rfl
  · rw [hsl]
    rfl

theorem selectFenced_no_bracket (j : List Char) (h : '[' ∉ j) :
    '[' ∉ selectFenced j := by
  unfold selectFenced
  cases hs : hasSub ticks j with
  | false =>
    simpa using h
  | true =>
    simp only [if_true]
    cases hfp : (splitTicks j).find? (fun p => p.contains '[' && p.contains ']') with
    | none => exact h
    | some p =>
      intro hm
      have hp1 : p ∈ splitTicks j := List.mem_of_find?_eq_some hfp
      exact h (splitTicks_mem_subset _ p hp1 '[' (mem_of_mem_pystrip _ _ hm))

theorem parse_of_no_bracket (t : List Char) (h : '[' ∉ t) :
    parseResponse t = none := by
  have h1 : '[' ∉ pystrip t := fun hm => h (mem_of_mem_pystrip _ _ hm)
  have h2 := selectFenced_no_bracket (pystrip t) h1
  have h3 : '[' ∉ replaceJsonTag (selectFenced (pystrip t)) :=
    fun hm => h2 (replaceJsonTag_subset _ '[' hm)
  exact parse_slice_no_bracket (replaceJsonTag (selectFenced (pystrip t))) h3

/-- C4: when the bracket-truncated substring of a response is not a strict
JSON array, create_chunks returns the empty list (the JSONDecodeError and
the no-valid-chunks ValueError are both caught); in particular this holds
for every response containing no opening bracket at all. -/
theorem create_chunks_malformed (ch : PyChapter) (t : List Char) :
    ((∀ l, parseResponse t ≠ some (Json.arr l)) → create_chunks ch (some t) = []) ∧
    ('[' ∉ t → create_chunks ch (some t) = []) := by
  refine ⟨create_chunks_no_array ch t, ?_⟩
  intro h
  apply create_chunks_no_array
  intro l
  rw [parse_of_no_bracket t h]
  simp

theorem create_chunks_malformed_witness :
    create_chunks exChapter (some exRespRefusal) = [] :=
  (create_chunks_malformed exChapter exRespRefusal).2 (by decide)

theorem quoteFix_eq_self (c : Char) : quoteFix c = c := by
  unfold quoteFix isQuoteVar
  by_cases h : c = '"'
  · subst h; rfl
  · rw [beq_eq_false_iff_ne.mpr h]; rfl

theorem map_quoteFix (l : List Char) : l.map quoteFix = l := by
  induction l with
  | nil => rfl
  | cons c t ih => simp [quoteFix_eq_self, ih]

theorem clean_text_eq (s : List Char) : clean_text s = pystrip (collapseWs s) := by
  unfold clean_text
  rw [map_quoteFix]

theorem collapseWs_all_space (s : List Char) :
    ∀ x ∈ collapseWs s, isPySpace x = true → x = ' ' := by
  induction s using collapseWs.induct with
  | case1 => intro x hx; cases hx
  | case2 c hc d t hd ih =>
    have he : collapseWs (c :: d :: t) = collapseWs (d :: t) := by
      simp [collapseWs, hc, hd]
    rw [he]
    exact ih
  | case3 c hc d t hd ih =>
    have he : collapseWs (c :: d :: t) = ' ' :: collapseWs (d :: t) := by
      simp [collapseWs, hc, hd]
    rw [he]
    intro x hx hw
    rcases List.mem_cons.mp hx with hx | hx
    · exact hx
    · exact ih x hx hw
  | case4 c hc =>
    have he : collapseWs [c] = [' '] := by simp [collapseWs, hc]
    rw [he]
    intro x hx hw
    simpa using hx
  | case5 c cs hc ih =>
    have he : collapseWs (c :: cs) = c :: collapseWs cs := by
      simp [collapseWs, hc]
    rw [he]
    intro x hx hw
    rcases List.mem_cons.mp hx with hx | hx
    · subst hx; exact absurd hw hc
    · exact ih x hx hw

theorem collapseWs_chain (s : List Char) :
    (collapseWs s).Chain' noWsPair := by
  induction s using collapseWs.induct with
  | case1 => exact List.chain'_nil
  | case2 c hc d t hd ih =>
    have he : collapseWs (c :: d :: t) = collapseWs (d :: t) := by
      simp [collapseWs, hc, hd]
    rw [he]
    exact ih
  | case3 c hc d t hd ih =>
    have he : collapseWs (c :: d :: t) = ' ' :: collapseWs (d :: t) := by
      simp [collapseWs, hc, hd]
    have he2 : collapseWs (d :: t) = d :: collapseWs t := by
      simp [collapseWs, hd]
    rw [he, List.chain'_cons']
    refine ⟨?_, ih⟩
    intro y hy
    rw [he2] at hy
    have hyd : d = y := by simpa using hy
    subst hyd
    intro hpair
    exact hd hpair.2
  | case4 c hc => simp [collapseWs, hc]
  | case5 c cs hc ih =>
    have he : collapseWs (c :: cs) = c :: collapseWs cs := by
      simp [collapseWs, hc]
    rw [he, List.chain'_cons']
    refine ⟨?_, ih⟩
    intro y hy hpair
    exact absurd hpair.1 hc

theorem collapseWs_fixed (t : List Char)
    (hall : ∀ x ∈ t, isPySpace x = true → x = ' ')
    (hch : t.Chain' noWsPair) : collapseWs t = t := by
  induction t with
  | nil => rfl
  | cons c cs ih =>
    have hall' : ∀ x ∈ cs, isPySpace x = true → x = ' ' :=
      fun x hx => hall x (List.mem_cons_of_mem _ hx)
    have hch' : cs.Chain' noWsPair := (List.chain'_cons'.mp hch).2
    cases hw : isPySpace c with
    | false => simp [collapseWs, hw, ih hall' hch']
    | true =>
      have hc' : c = ' ' := hall c (List.mem_cons_self _ _) hw
      cases cs with
      | nil => simp [collapseWs, hw, hc']
      | cons d t2 =>
        have hnw := (List.chain'_cons'.mp hch).1 d rfl
        have hd : isPySpace d = false := by
          cases h2 : isPySpace d with
          | false => rfl
          | true => exact absurd ⟨hw, h2⟩ hnw
        have he : collapseWs (c :: d :: t2) = ' ' :: collapseWs (d :: t2) := by
          simp [collapseWs, hw, hd, Bool.false_eq_true]
        rw [he, ih hall' hch', hc']

theorem trimRight_prefix_self (x : List Char) : trimRight x <+: x := by
  unfold trimRight
  conv_rhs => rw [← List.reverse_reverse x]
  exact List.reverse_prefix.mpr (List.dropWhile_suffix isPySpace)

theorem pystrip_infix_self (s : List Char) : pystrip s <:+: s := by
  unfold pystrip
  exact (trimRight_prefix_self (trimLeft s)).isInfix.trans
    (List.dropWhile_suffix isPySpace).isInfix

theorem head?_trimLeft_not (v : List Char) (c : Char)
    (h : (trimLeft v).head? = some c) : isPySpace c = false := by
  have h2 := List.head?_dropWhile_not isPySpace v
  rw [show v.dropWhile isPySpace = trimLeft v from rfl, h] at h2
  exact h2

theorem trimLeft_of_head (x : List Char)
    (h : ∀ c, x.head? = some c → isPySpace c = false) : trimLeft x = x := by
  cases x with
  | nil => rfl
  | cons c cs =>
    unfold trimLeft
    rw [List.dropWhile_cons, h c rfl]
    simp

theorem trimRight_idem (x : List Char) : trimRight (trimRight x) = trimRight x := by
  unfold trimRight
  rw [List.reverse_reverse, List.dropWhile_idempotent]

theorem pystrip_idem (v : List Char) : pystrip (pystrip v) = pystrip v := by
  show trimRight (trimLeft (trimRight (trimLeft v))) = trimRight (trimLeft v)
  have h1 : trimLeft (trimRight (trimLeft v)) = trimRight (trimLeft v) := by
    apply trimLeft_of_head
    intro c hc
    apply head?_trimLeft_not v
    obtain ⟨u, hu⟩ := trimRight_prefix_self (trimLeft v)
    rw [← hu]
    cases hx : trimRight (trimLeft v) with
    | nil => rw [hx] at hc; cases hc
    | cons y ys =>
      rw [hx] at hc
      simp only [List.head?_cons, Option.some.injEq] at hc
      subst hc
      rfl
  rw [h1, trimRight_idem]

theorem collapseWs_length (s : List Char) : (collapseWs s).length ≤ s.length := by
  induction s using collapseWs.induct with
  | case1 => simp [collapseWs]
  | case2 c hc d t hd ih =>
    have he : collapseWs (c :: d :: t) = collapseWs (d :: t) := by
      simp [collapseWs, hc, hd]
    rw [he]
    exact le_trans ih (by simp)
  | case3 c hc d t hd ih =>
    have he : collapseWs (c :: d :: t) = ' ' :: collapseWs (d :: t) := by
      simp [collapseWs, hc, hd]
    rw [he]
    simpa using ih
  | case4 c hc =>
    have he : collapseWs [c] = [' '] := by simp [collapseWs, hc]
    rw [he]
    simp
  | case5 c cs hc ih =>
    have he : collapseWs (c :: cs) = c :: collapseWs cs := by
      simp [collapseWs, hc]
    rw [he]
    simpa using ih

theorem pystrip_length (x : List Char) : (pystrip x).length ≤ x.length :=
  (pystrip_infix_self x).sublist.length_le

/-- C7: the text normalizer is idempotent and never increases length. -/
theorem clean_text_idempotent (s : List Char) :
    clean_text (clean_text s) = clean_text s ∧ (clean_text s).length ≤ s.length := by
  constructor
  · rw [clean_text_eq, clean_text_eq]
    have hall := collapseWs_all_space s
    have hch := collapseWs_chain s
    have hinf : pystrip (collapseWs s) <:+: collapseWs s := pystrip_infix_self _
    have hall' : ∀ x ∈ pystrip (collapseWs s), isPySpace x = true → x = ' ' :=
      fun x hx => hall x (hinf.subset hx)
    have hch' : (pystrip (collapseWs s)).Chain' noWsPair := hch.infix hinf
    rw [collapseWs_fixed _ hall' hch']
    exact pystrip_idem _
  · rw [clean_text_eq]
    exact le_trans (pystrip_length _) (collapseWs_length s)

theorem numberChapters_length (text : List Char) :
    ∀ (ms : List (List Char × Nat)) (i : Nat),
    (numberChapters text i ms).length = ms.length
  | [], _ => rfl
  | (g, e) :: ms, i => by
    simp [numberChapters, numberChapters_length text ms (i + 1)]

theorem numberChapters_get (text : List Char) :
    ∀ (ms : List (List Char × Nat)) (i k : Nat)
    (h : k < (numberChapters text i ms).length),
    ((numberChapters text i ms).get ⟨k, h⟩).chapter_number = i + k
  | [], i, k, h => by
    exact absurd h (by simp [numberChapters])
  | (g, e) :: ms, i, k, h => by
    cases k with
    | zero => rfl
    | succ k' =>
      have h' : k' < (numberChapters text (i + 1) ms).length := by
        have hl := numberChapters_length text ((g, e) :: ms) i
        simp only [numberChapters, List.length_cons] at h
        omega
      have hrec := numberChapters_get text ms (i + 1) k' h'
      show ((numberChapters text (i + 1) ms).get ⟨k', h'⟩).chapter_number = i + (k' + 1)
      rw [hrec]
      omega

/-- C6 amended: letting the match list be computed on the text after
table-of-contents header removal, process_novel returns exactly one chapter
per match, with chapter_number equal to the 1-based enumeration index of the
match (independent of any numeral in the title), and an empty match list
yields an empty chapter sequence rather than an error. -/
theorem process_novel_chapter_numbering (raw : List Char) :
    (process_novel raw).length = (chapterMatches (headerSub raw)).length ∧
    (∀ i (h : i < (process_novel raw).length),
      ((process_novel raw).get ⟨i, h⟩).chapter_number = i + 1) ∧
    (chapterMatches (headerSub raw) = [] → process_novel raw = []) := by
  refine ⟨?_, ?_, ?_⟩
  · exact numberChapters_length _ _ 1
  · intro i h
    have hrec := numberChapters_get (headerSub raw)
      (chapterMatches (headerSub raw)) 1 i h
    show ((numberChapters (headerSub raw) 1
      (chapterMatches (headerSub raw))).get ⟨i, h⟩).chapter_number = i + 1
    rw [hrec]
    omega
  · intro h0
    show numberChapters (headerSub raw) 1 (chapterMatches (headerSub raw)) = []
    rw [h0]
    rfl

theorem process_novel_chapter_numbering_witness :
    ∃ h : 0 < (process_novel exRawOne).length,
      ((process_novel exRawOne).get ⟨0, h⟩).chapter_number = 1 := by
  have h : (process_novel exRawOne).length = 1 := by rfl
  have h0 : 0 < (process_novel exRawOne).length := by omega
  exact ⟨h0, (process_novel_chapter_numbering exRawOne).2.1 0 h0⟩

/-- C6 counterexample: on the raw text the chapter pattern has two matches,
but the table-of-contents removal swallows the first delimiter, so
process_novel returns a single chapter. -/
theorem process_novel_raw_match_count_cex :
    (chapterMatches exRawContents).length = 2 ∧
    (process_novel exRawContents).length = 1 := by
  exact ⟨rfl, rfl⟩

theorem hasSub_iff (pat : List Char) :
    ∀ x : List Char, hasSub pat x = true ↔ ∃ u v, x = u ++ (pat ++ v)
  | [] => by
    simp only [hasSub]
    constructor
    · intro h
      have hp : pat = [] := by simpa [List.isEmpty_iff] using h
      exact ⟨[], [], by simp [hp]⟩
    · rintro ⟨u, v, huv⟩
      have : pat = [] := by
        cases u <;> cases pat <;> simp_all
      simp [this]
  | c :: cs => by
    simp only [hasSub, Bool.or_eq_true]
    constructor
    · rintro (hp | hs)
      · obtain ⟨v, hv⟩ := List.isPrefixOf_iff_prefix.mp hp
        exact ⟨[], v, by simp [hv]⟩
      · obtain ⟨u, v, huv⟩ := (hasSub_iff pat cs).mp hs
        exact ⟨c :: u, v, by simp [huv]⟩
    · rintro ⟨u, v, huv⟩
      cases u with
      | nil =>
        left
        simp only [List.nil_append] at huv
        exact List.isPrefixOf_iff_prefix.mpr ⟨v, huv.symm⟩
      | cons u0 ut =>
        right
        apply (hasSub_iff pat cs).mpr
        injection huv with h1 h2
        exact ⟨ut, v, h2⟩

theorem hasSub_append_right (pat a b : List Char) (h : hasSub pat b = true) :
    hasSub pat (a ++ b) = true := by
  obtain ⟨u, v, huv⟩ := (hasSub_iff pat b).mp h
  exact (hasSub_iff pat (a ++ b)).mpr ⟨a ++ u, v, by simp [huv]⟩

theorem hasSub_append_left (pat a b : List Char) (h : hasSub pat a = true) :
    hasSub pat (a ++ b) = true := by
  obtain ⟨u, v, huv⟩ := (hasSub_iff pat a).mp h
  exact (hasSub_iff pat (a ++ b)).mpr ⟨u, v ++ b, by simp [huv]⟩

theorem trimLeft_append (a b : List Char) (hc : Char)
    (hb : b.head? = some hc) (hw : isPySpace hc = false) :
    trimLeft (a ++ b) = trimLeft a ++ b := by
  induction a with
  | nil =>
    simp only [List.nil_append]
    cases b with
    | nil => rfl
    | cons x xs =>
      simp only [List.head?_cons, Option.some.injEq] at hb
      subst hb
      unfold trimLeft
      rw [List.dropWhile_cons, hw]
      simp
  | cons c cs ih =>
    unfold trimLeft at ih ⊢
    rw [List.cons_append, List.dropWhile_cons, List.dropWhile_cons]
    cases hws : isPySpace c with
    | true => simpa using ih
    | false => simp

theorem trimRight_append (a b : List Char) (lc : Char)
    (ha : a.getLast? = some lc) (hw : isPySpace lc = false) :
    trimRight (a ++ b) = a ++ trimRight b := by
  unfold trimRight
  rw [List.reverse_append]
  have h2 := trimLeft_append b.reverse a.reverse lc
    (by rw [List.head?_reverse]; exact ha) hw
  unfold trimLeft at h2
  rw [h2]
  simp

theorem pystrip_concat (pre mid post : List Char) (h1 l1 : Char)
    (hh : mid.head? = some h1) (hhw : isPySpace h1 = false)
    (hl : mid.getLast? = some l1) (hlw : isPySpace l1 = false) :
    pystrip (pre ++ (mid ++ post)) = trimLeft pre ++ (mid ++ trimRight post) := by
  unfold pystrip
  rw [trimLeft_append pre (mid ++ post) h1 (by cases mid with
    | nil => cases hh
    | cons x xs => simpa using hh) hhw]
  rw [show trimLeft pre ++ (mid ++ post) = (trimLeft pre ++ mid) ++ post by simp]
  rw [trimRight_append (trimLeft pre ++ mid) post l1 (by
    rw [List.getLast?_append_of_ne_nil]
    · exact hl
    · intro hmid; subst hmid; cases hl) hlw]
  simp


theorem splitTicks_cons_not_fence (x : Char) (xs : List Char)
    (h : ticks.isPrefixOf (x :: xs) = false) :
    splitTicks (x :: xs) = consHead x (splitTicks xs) := by
  match xs with
  | [] => rfl
  | [y] => rfl
  | y :: z :: rest =>
    have hc : (x == btick && y == btick && z == btick) = false := by
      cases hx : x == btick with
      | false => simp [hx]
      | true =>
        cases hy : y == btick with
        | false => simp [hx, hy]
        | true =>
          cases hz : z == btick with
          | false => simp [hx, hy, hz]
          | true =>
            exfalso
            rw [beq_iff_eq] at hx hy hz
            subst hx
            subst hy
            subst hz
            simp [ticks, List.isPrefixOf] at h
    simp only [splitTicks, hc, Bool.false_eq_true, if_false]

theorem splitTicks_fence (r : List Char) :
    splitTicks (btick :: btick :: btick :: r) = [] :: splitTicks r := by
  simp [splitTicks]

theorem splitTicks_of_no_fence (l : List Char) (h : hasSub ticks l = false) :
    splitTicks l = [l] := by
  induction l with
  | nil => rfl
  | cons c cs ih =>
    simp only [hasSub, Bool.or_eq_false_iff] at h
    rw [splitTicks_cons_not_fence c cs h.1, ih h.2]
    rfl

theorem splitTicks_append_fence :
    ∀ (a r : List Char), hasSub ticks a = false → a.getLast? ≠ some btick →
    splitTicks (a ++ (ticks ++ r)) = a :: splitTicks r
  | [], r, _, _ => by
    show splitTicks (btick :: btick :: btick :: r) = [] :: splitTicks r
    exact splitTicks_fence r
  | x :: a', r, hsub, hlast => by
    simp only [hasSub, Bool.or_eq_false_iff] at hsub
    have hnp : ticks.isPrefixOf (x :: (a' ++ (ticks ++ r))) = false := by
      cases a' with
      | nil =>
        have hx : x ≠ btick := fun hx => hlast (by simp [hx])
        simp [ticks, List.isPrefixOf, Ne.symm hx]
      | cons y a'' =>
        cases a'' with
        | nil =>
          have hy : y ≠ btick := fun hy => hlast (by simp [hy])
          simp [ticks, List.isPrefixOf, Ne.symm hy]
        | cons z a3 =>
          by_cases hx : x = btick
          · by_cases hy : y = btick
            · by_cases hz : z = btick
              · exfalso
                have hpref : ticks.isPrefixOf (x :: y :: z :: a3) = true := by
                  subst hx
                  subst hy
                  subst hz
                  simp [ticks, List.isPrefixOf]
                rw [hpref] at hsub
                exact absurd hsub.1 (by simp)
              · simp [ticks, List.isPrefixOf, Ne.symm hz]
            · simp [ticks, List.isPrefixOf, Ne.symm hy]
          · simp [ticks, List.isPrefixOf, Ne.symm hx]
    rw [show (x :: a') ++ (ticks ++ r) = x :: (a' ++ (ticks ++ r)) from rfl]
    rw [splitTicks_cons_not_fence x _ hnp]
    have ha'last : a'.getLast? ≠ some btick := by
      cases a' with
      | nil => simp
      | cons y a'' =>
        intro hy
        exact hlast (by rw [List.getLast?_cons_cons]; exact hy)
    rw [splitTicks_append_fence a' r hsub.2 ha'last]
    rfl

theorem replaceJsonTag_cons_not_tag (c0 : Char) (cs : List Char)
    (h : jsonTag.isPrefixOf (c0 :: cs) = false) :
    replaceJsonTag (c0 :: cs) = c0 :: replaceJsonTag cs := by
  rw [replaceJsonTag.eq_def]
  split
  · next rest heq =>
    exfalso
    rw [heq] at h
    simp [jsonTag, List.isPrefixOf] at h
  · next c1 cs1 heq =>
    injection heq with h1 h2
    rw [h1, h2]
  · next heq =>
    exact absurd heq (by simp)

theorem replaceJsonTag_of_no_tag (l : List Char) (h : hasSub jsonTag l = false) :
    replaceJsonTag l = l := by
  induction l with
  | nil => rfl
  | cons c cs ih =>
    simp only [hasSub, Bool.or_eq_false_iff] at h
    rw [replaceJsonTag_cons_not_tag c cs h.1, ih h.2]

theorem replaceJsonTag_tag_prefix (s : List Char) :
    replaceJsonTag (jsonTag ++ s) = replaceJsonTag s := rfl

theorem pyfind_head (s' : List Char) : pyfind '[' ('[' :: s') = 0 := by
  unfold pyfind
  rw [List.findIdx?_cons]
  simp

theorem pyrfind_last (X : List Char) : pyrfind ']' (X ++ [']']) = (X.length : Int) := by
  unfold pyrfind
  rw [List.reverse_append]
  show (match (']' :: X.reverse).findIdx? (· == ']') with
    | some k => (((X ++ [']']).length - 1 - k : Nat) : Int)
    | none => -1) = (X.length : Int)
  rw [List.findIdx?_cons]
  simp

theorem pyslice_all (s : List Char) : pyslice s 0 ((s.length : Nat) : Int) = s := by
  unfold pyslice
  have h1 : ¬ ((0 : Int) < 0) := by omega
  have h2 : ¬ (((s.length : Nat) : Int) < 0) := by omega
  simp only [h1, h2, if_false]
  have h3 : (0 : Int).toNat = 0 := rfl
  have h4 : ((s.length : Nat) : Int).toNat = s.length := by omega
  rw [h3, h4, min_self]
  simp

theorem extract_of_bracket_shape (s : List Char)
    (hh : s.head? = some '[') (hl : s.getLast? = some ']') :
    pyslice s (pyfind '[' s) (pyrfind ']' s + 1) = s := by
  obtain ⟨s', hs'⟩ : ∃ s', s = '[' :: s' := by
    cases s with
    | nil => cases hh
    | cons c t =>
      simp only [List.head?_cons, Option.some.injEq] at hh
      exact ⟨t, by rw [hh]⟩
  obtain ⟨Y, hY⟩ : ∃ Y, s = Y ++ [']'] := by
    have hrev : s.reverse.head? = some ']' := by
      rw [List.head?_reverse]
      exact hl
    cases hr : s.reverse with
    | nil => rw [hr] at hrev; cases hrev
    | cons c t =>
      rw [hr] at hrev
      simp only [List.head?_cons, Option.some.injEq] at hrev
      subst hrev
      refine ⟨t.reverse, ?_⟩
      have := congrArg List.reverse hr
      simpa using this
  have hfind : pyfind '[' s = 0 := by rw [hs']; exact pyfind_head s'
  have hrfind : pyrfind ']' s = ((Y.length : Nat) : Int) := by rw [hY]; exact pyrfind_last Y
  have hlen : s.length = Y.length + 1 := by rw [hY]; simp
  have harith : ((Y.length : Nat) : Int) + 1 = ((s.length : Nat) : Int) := by
    rw [hlen]; push_cast; omega
  rw [hfind, hrfind, harith]
  exact pyslice_all s

theorem contains_of_mem (x : List Char) (c : Char) (h : c ∈ x) :
    x.contains c = true := by
  simpa [List.contains] using h

theorem mem_of_contains (x : List Char) (c : Char) (h : x.contains c = true) :
    c ∈ x := by
  simpa [List.contains] using h

theorem pystrip_mid (s : List Char) (hh : s.head? = some '[')
    (hl : s.getLast? = some ']') :
    pystrip (jsonTag ++ (s ++ ['\n'])) = jsonTag ++ s := by
  have hsne : s ≠ [] := by
    intro he
    rw [he] at hh
    cases hh
  unfold pystrip
  have h1 : trimLeft (jsonTag ++ (s ++ ['\n'])) = jsonTag ++ (s ++ ['\n']) := rfl
  rw [h1]
  rw [show jsonTag ++ (s ++ ['\n']) = (jsonTag ++ s) ++ ['\n'] by simp]
  rw [trimRight_append (jsonTag ++ s) ['\n'] ']' ?_ rfl]
  · rw [show trimRight ['\n'] = [] from rfl]
    simp
  · rw [List.getLast?_append_of_ne_nil]
    · exact hl
    · exact hsne

theorem selectFenced_eval (P mid Q : List Char)
    (hPf : hasSub ticks P = false) (hPl : P.getLast? ≠ some btick)
    (hmidf : hasSub ticks mid = false) (hmidl : mid.getLast? ≠ some btick)
    (hQf : hasSub ticks Q = false)
    (hPbr : (P.contains '[' && P.contains ']') = false)
    (hmidbr : (mid.contains '[' && mid.contains ']') = true) :
    selectFenced (P ++ (ticks ++ (mid ++ (ticks ++ Q)))) = pystrip mid := by
  unfold selectFenced
  have hhas : hasSub ticks (P ++ (ticks ++ (mid ++ (ticks ++ Q)))) = true :=
    (hasSub_iff ticks _).mpr ⟨P, mid ++ (ticks ++ Q), rfl⟩
  rw [hhas, if_pos rfl]
  have hsplit : splitTicks (P ++ (ticks ++ (mid ++ (ticks ++ Q)))) =
      P :: (mid :: [Q]) := by
    rw [splitTicks_append_fence P _ hPf hPl]
    rw [splitTicks_append_fence mid Q hmidf hmidl]
    rw [splitTicks_of_no_fence Q hQf]
  rw [hsplit]
  have hfind : List.find? (fun p => p.contains '[' && p.contains ']')
      (P :: (mid :: [Q])) = some mid := by
    rw [List.find?_cons_of_neg, List.find?_cons_of_pos]
    · exact hmidbr
    · rw [hPbr]
      simp
  rw [hfind]

theorem extract_fenced (pre s post : List Char)
    (hpre_fence : hasSub ticks pre = false)
    (hmid_fence : hasSub ticks (jsonTag ++ (s ++ ['\n'])) = false)
    (hpost_fence : hasSub ticks post = false)
    (hpre_last : pre.getLast? ≠ some btick)
    (hpre_br : ¬(pre.contains '[' = true ∧ pre.contains ']' = true))
    (hhead : s.head? = some '[')
    (hlast : s.getLast? = some ']') (htag : hasSub jsonTag s = false) :
    extractJsonStr
      (pre ++ (ticks ++ (jsonTag ++ (s ++ (['\n'] ++ (ticks ++ post)))))) = s := by
  have hMh : (ticks ++ ((jsonTag ++ (s ++ ['\n'])) ++ ticks)).head? = some btick := rfl
  have hMl : (ticks ++ ((jsonTag ++ (s ++ ['\n'])) ++ ticks)).getLast? = some btick := by
    rw [List.getLast?_append_of_ne_nil, List.getLast?_append_of_ne_nil]
    · rfl
    · simp [ticks]
    · simp [ticks]
  have hresp : pre ++ (ticks ++ (jsonTag ++ (s ++ (['\n'] ++ (ticks ++ post))))) =
      pre ++ ((ticks ++ ((jsonTag ++ (s ++ ['\n'])) ++ ticks)) ++ post) := by
    simp
  have hstrip : pystrip (pre ++ ((ticks ++ ((jsonTag ++ (s ++ ['\n'])) ++ ticks)) ++ post)) =
      trimLeft pre ++ ((ticks ++ ((jsonTag ++ (s ++ ['\n'])) ++ ticks)) ++ trimRight post) :=
    pystrip_concat pre _ post btick btick hMh (by decide) hMl (by decide)
  have hPf : hasSub ticks (trimLeft pre) = false := by
    obtain ⟨u, hu⟩ := List.dropWhile_suffix (l := pre) isPySpace
    cases hcon : hasSub ticks (trimLeft pre) with
    | false => rfl
    | true =>
      exfalso
      have h2 := hasSub_append_right ticks u (trimLeft pre) hcon
      rw [show u ++ trimLeft pre = pre from hu] at h2
      rw [h2] at hpre_fence
      cases hpre_fence
  have hPl : (trimLeft pre).getLast? ≠ some btick := by
    obtain ⟨u, hu⟩ := List.dropWhile_suffix (l := pre) isPySpace
    cases htl : trimLeft pre with
    | nil => intro h; cases h
    | cons c cs =>
      have hne : trimLeft pre ≠ [] := by rw [htl]; simp
      have heq : pre.getLast? = (trimLeft pre).getLast? := by
        conv_lhs => rw [← hu]
        rw [List.getLast?_append_of_ne_nil]
        · rfl
        · exact hne
      rw [← htl, ← heq]
      exact hpre_last
  have hmidl : (jsonTag ++ (s ++ ['\n'])).getLast? ≠ some btick := by
    rw [List.getLast?_append_of_ne_nil, List.getLast?_append_of_ne_nil]
    · decide
    · simp
    · simp
  have hQf : hasSub ticks (trimRight post) = false := by
    obtain ⟨w, hw⟩ := trimRight_prefix_self post
    cases hcon : hasSub ticks (trimRight post) with
    | false => rfl
    | true =>
      exfalso
      have h2 := hasSub_append_left ticks (trimRight post) w hcon
      rw [hw] at h2
      rw [h2] at hpost_fence
      cases hpost_fence
  have hPbr : ((trimLeft pre).contains '[' && (trimLeft pre).contains ']') = false := by
    cases hc1 : (trimLeft pre).contains '[' with
    | false => rfl
    | true =>
      cases hc2 : (trimLeft pre).contains ']' with
      | false => rfl
      | true =>
        exfalso
        apply hpre_br
        constructor
        · exact contains_of_mem pre '['
            ((List.dropWhile_sublist isPySpace).subset (mem_of_contains _ '[' hc1))
        · exact contains_of_mem pre ']'
            ((List.dropWhile_sublist isPySpace).subset (mem_of_contains _ ']' hc2))
  have hmem1 : '[' ∈ s := by
    cases s with
    | nil => cases hhead
    | cons c t =>
      simp only [List.head?_cons, Option.some.injEq] at hhead
      rw [hhead]
      exact List.mem_cons_self _ _
  have hmem2 : ']' ∈ s := by
    have hrev : s.reverse.head? = some ']' := by
      rw [List.head?_reverse]
      exact hlast
    cases hr : s.reverse with
    | nil => rw [hr] at hrev; cases hrev
    | cons c t =>
      rw [hr] at hrev
      simp only [List.head?_cons, Option.some.injEq] at hrev
      subst hrev
      have : ']' ∈ s.reverse := by
        rw [hr]
        exact List.mem_cons_self _ _
      simpa using this
  have hmidbr : ((jsonTag ++ (s ++ ['\n'])).contains '[' &&
      (jsonTag ++ (s ++ ['\n'])).contains ']') = true := by
    rw [contains_of_mem _ '[' (by simp [hmem1]), contains_of_mem _ ']' (by simp [hmem2])]
    rfl
  have hsel := selectFenced_eval (trimLeft pre) (jsonTag ++ (s ++ ['\n']))
    (trimRight post) hPf hPl hmid_fence hmidl hQf hPbr hmidbr
  have hshape2 : trimLeft pre ++ ((ticks ++ ((jsonTag ++ (s ++ ['\n'])) ++ ticks)) ++ trimRight post) =
      trimLeft pre ++ (ticks ++ ((jsonTag ++ (s ++ ['\n'])) ++ (ticks ++ trimRight post))) := by
    simp
  have hj3 : replaceJsonTag (selectFenced (pystrip
      (pre ++ (ticks ++ (jsonTag ++ (s ++ (['\n'] ++ (ticks ++ post)))))))) = s := by
    rw [hresp, hstrip, hshape2, hsel, pystrip_mid s hhead hlast,
      replaceJsonTag_tag_prefix, replaceJsonTag_of_no_tag s htag]
  show pyslice _ (pyfind '[' _) (pyrfind ']' _ + 1) = s
  rw [hj3]
  exact extract_of_bracket_shape s hhead hlast

/-- C3 amended: a response of the form prose, fence, json tag, array text,
newline, fence, prose is parsed to exactly the array records, provided the
prose and the fenced body contain no further fence delimiter, the prose does
not touch the fences with a stray backtick, the leading prose does not
contain both an opening and a closing bracket, and the array text starts
with the opening bracket, ends with the closing bracket and contains no
embedded json-tag sequence. -/
theorem parse_extracts_fenced_array (pre s post : List Char) (recs : List Json)
    (hpre_fence : hasSub ticks pre = false)
    (hmid_fence : hasSub ticks (jsonTag ++ (s ++ ['\n'])) = false)
    (hpost_fence : hasSub ticks post = false)
    (hpre_last : pre.getLast? ≠ some btick)
    (hpre_br : ¬(pre.contains '[' = true ∧ pre.contains ']' = true))
    (hhead : s.head? = some '[')
    (hlast : s.getLast? = some ']')
    (htag : hasSub jsonTag s = false)
    (hparse : parseTop s = some (Json.arr recs)) :
    parseResponse (pre ++ (ticks ++ (jsonTag ++ (s ++ (['\n'] ++ (ticks ++ post))))))
      = some (Json.arr recs) := by
  unfold parseResponse
  rw [extract_fenced pre s post hpre_fence hmid_fence hpost_fence hpre_last
    hpre_br hhead hlast htag]
  exact hparse

theorem parse_extracts_fenced_array_witness :
    parseResponse exRespFenced =
      some (Json.arr exArrayRecs) := by
  have h := parse_extracts_fenced_array ("Here is the result:\n".data) exArrayText
    ("\nHope this helps.".data) exArrayRecs (by decide) (by decide) (by decide)
    (by decide) (by decide) (by decide) (by decide) (by decide) rfl
  exact h

/-- C3 counterexample: the prose before the fence contains a bracketed
aside, so the fence-segment selection loop picks the prose segment, the
bracket truncation yields the aside, json parsing fails, and no records are
extracted, although the fenced body carries a valid array of one record. -/
theorem parse_fenced_prose_brackets_cex :
    parseResponse exRespProseBrackets = none ∧
    parseTop exArrayText = some (Json.arr exArrayRecs) := by
  exact ⟨rfl, rfl⟩
